import Mathlib

/-!
Verification of `source_estimation.py` (repository GAU_LI_EMPIRICAL).

The source is embedded shallowly:
* Python floats are modelled by the type `FVal`: a finite real, `-inf`,
  `+inf`, or `nan`, with IEEE-754 comparison/arithmetic semantics on the
  cases the program exercises.  Observation times (inputs) are modelled as
  exact rationals cast into the reals where arithmetic happens, which makes
  the purely combinatorial part of the pipeline kernel-evaluable.
* Python dictionaries are modelled as association lists in insertion order
  (CPython dicts preserve insertion order; assignment to an existing key
  keeps its position).
* `sorted(..., key=itemgetter(1))` is modelled by a stable insertion sort;
  `reverse=True` is modelled the way CPython implements it: reverse the
  list, stable-sort ascending, reverse again.
* Exceptions (IndexError, AssertionError, KeyError, numpy LinAlgError,
  math domain ValueError) are modelled with `Except Err`.
* The collaborators from `GAU_LI_EMPIRICAL.source_est_tools` (not part of
  the given source) are parameters of the embedding, gathered in the
  structure `Tools`; their contracts follow the spec.
-/

/-- IEEE-style value of a Python float: finite, `-inf`, `+inf` or `nan`. -/
inductive FVal where
  | finite (x : ℝ)
  | neginf
  | posinf
  | nan

/-- Is the value a finite float? -/
def FVal.isFinite : FVal → Bool
  | .finite _ => true
  | _ => false

/-- Is the value `nan`? -/
def FVal.isNan : FVal → Bool
  | .nan => true
  | _ => false

/-- Is the value `+inf`? -/
def FVal.isPosinf : FVal → Bool
  | .posinf => true
  | _ => false

/-- IEEE `<` on float values: any comparison involving `nan` is false. -/
noncomputable def fvalLt : FVal → FVal → Bool
  | .nan, _ => false
  | _, .nan => false
  | .neginf, .neginf => false
  | .neginf, _ => true
  | .finite _, .neginf => false
  | .finite a, .finite b => decide (a < b)
  | .finite _, .posinf => true
  | .posinf, _ => false

/-- IEEE subtraction on float values (`-inf - -inf = nan`, etc.). -/
noncomputable def fvalSub : FVal → FVal → FVal
  | .nan, _ => .nan
  | _, .nan => .nan
  | .finite a, .finite b => .finite (a - b)
  | .finite _, .neginf => .posinf
  | .finite _, .posinf => .neginf
  | .neginf, .neginf => .nan
  | .neginf, _ => .neginf
  | .posinf, .posinf => .nan
  | .posinf, _ => .posinf

/-- IEEE `exp` on float values: `exp(-inf) = 0`, `exp(nan) = nan`. -/
noncomputable def fvalExp : FVal → FVal
  | .nan => .nan
  | .neginf => .finite 0
  | .posinf => .posinf
  | .finite x => .finite (Real.exp x)

/-- The real number carried by a finite float value, `0` otherwise. -/
def fvalToReal : FVal → ℝ
  | .finite x => x
  | _ => 0

/-- Python exceptions raised by the embedded code. -/
inductive Err where
  | indexError
  | assertionError
  | keyError
  | linAlgError
  | valueError

variable {V PL MP : Type} [DecidableEq V]

/-- Dictionary membership test for the association-list model of a dict. -/
def hasKey (l : List (V × ℚ)) (k : V) : Bool :=
  (l.find? (fun p => decide (p.1 = k))).isSome

/-- Dictionary lookup (first matching key; default `0`, used only after a
`hasKey` check, mirroring Python raising `KeyError` on a missing key). -/
def lookupD (l : List (V × ℚ)) (k : V) : ℚ :=
  match l.find? (fun p => decide (p.1 = k)) with
  | some p => p.2
  | none => 0

/-- One step of the stable insertion sort by ascending rational key:
the inserted element comes from later in the input, so it goes after
every element it is not strictly below (CPython Timsort stability). -/
def insertByQ (x : V × ℚ) : List (V × ℚ) → List (V × ℚ)
  | [] => [x]
  | h :: t => if x.2 < h.2 then x :: h :: t else h :: insertByQ x t

/-- `sorted(items, key=itemgetter(1))`: stable ascending sort by value. -/
def pySortedAscBy (l : List (V × ℚ)) : List (V × ℚ) :=
  l.foldl (fun acc x => insertByQ x acc) []

/-- One step of the stable insertion sort by ascending float value. -/
noncomputable def insertByF (x : V × FVal) : List (V × FVal) → List (V × FVal)
  | [] => [x]
  | h :: t => if fvalLt x.2 h.2 then x :: h :: t else h :: insertByF x t

/-- Ascending stable sort by float value (same shape as `pySortedAscBy`). -/
noncomputable def sortAscByF (l : List (V × FVal)) : List (V × FVal) :=
  l.foldl (fun acc x => insertByF x acc) []

/-- `sorted(items, key=itemgetter(1), reverse=True)`: CPython implements
`reverse=True` by reversing the list, stable-sorting ascending, and
reversing again, which is what this definition does. -/
noncomputable def pySortedDescBy (l : List (V × FVal)) : List (V × FVal) :=
  (sortAscByF l.reverse).reverse

/-- Sum of `exp` over the finite entries of a list of float values. -/
noncomputable def sumExpFinite : List FVal → ℝ
  | [] => 0
  | .finite x :: t => Real.exp x + sumExpFinite t
  | _ :: t => sumExpFinite t

/-- `scipy.misc.logsumexp` (alias of `scipy.special.logsumexp`): the max
shift is replaced by `0` when not finite, so a `nan` entry gives `nan`, a
`+inf` entry gives `+inf`, otherwise `-inf` entries contribute `exp(-inf)=0`
and the result is `log` of the sum of exponentials of the finite entries
(`-inf` when there is no finite entry). -/
noncomputable def logsumexp (vals : List FVal) : FVal :=
  if vals.any FVal.isNan then .nan
  else if vals.any FVal.isPosinf then .posinf
  else if vals.any FVal.isFinite then .finite (Real.log (sumExpFinite vals))
  else .neginf

/-- `posterior_from_logLH` (source lines 79-88): `bias` is the log-sum-exp
of all stored log-likelihood values and every entry is mapped to
`np.exp(value - bias)`, keeping dict insertion order. -/
noncomputable def posterior_from_logLH (l : List (V × FVal)) : List (V × FVal) :=
  let bias := logsumexp (l.map Prod.snd)
  l.map (fun p => (p.1, fvalExp (fvalSub p.2 bias)))

/-- The multivariate Gaussian log-density stated by the spec for
`logLH_source_tree`: `-1/2 (x-mu)^T cov^(-1) (x-mu) - 1/2 log((2 pi)^k det cov)`
with `k` the dimension of `x`.  This definition follows the spec words and
is compared against the embedded code. -/
noncomputable def gaussLogDensity (k : ℕ) (x mu : Fin k → ℝ)
    (cov : Matrix (Fin k) (Fin k) ℝ) : ℝ :=
  -(1/2 * Matrix.dotProduct (x - mu) (cov⁻¹.mulVec (x - mu)))
    - 1/2 * Real.log ((2 * Real.pi) ^ k * cov.det)

/-- The observed relative-delay vector of `logLH_source_tree` (source
lines 105-110): `obs_d[l] = obs_time[obs[l]] - obs_time[ref_obs]`. -/
noncomputable def obsDVec (obs : List V) (obs_time : List (V × ℚ)) (ref_obs : V) :
    Fin obs.length → ℝ := fun l =>
  ((lookupD obs_time (obs.get l) : ℚ) : ℝ) - ((lookupD obs_time ref_obs : ℚ) : ℝ)

/-- `logLH_source_tree` (source lines 91-116).  The Python signature is
`(mu_s, cov_d, obs, obs_time, ref_obs)`; `obs` is moved first because the
types of `mu_s` and `cov_d` depend on its length.  Semantics in source
order: the `assert len(obs) > 1` raises `AssertionError`; building `obs_d`
looks the observers and the reference up in `obs_time` (`KeyError` if
missing); `np.linalg.inv` raises `LinAlgError` on a singular matrix;
`math.sqrt` raises a `ValueError` on a negative argument.  The returned
pair is `(exponent - log(denom), obs_d - mu_s)` with
`denom = sqrt((2 pi)^(len(obs_d)-1) * det(cov_d))`. -/
noncomputable def logLH_source_tree (obs : List V)
    (mu_s : Fin obs.length → ℝ)
    (cov_d : Matrix (Fin obs.length) (Fin obs.length) ℝ)
    (obs_time : List (V × ℚ)) (ref_obs : V) :
    Except Err (ℝ × (Fin obs.length → ℝ)) :=
  if obs.length ≤ 1 then .error .assertionError
  else if ¬ (obs.all (fun o => hasKey obs_time o) ∧ hasKey obs_time ref_obs)
    then .error .keyError
  else
    let obs_d : Fin obs.length → ℝ := obsDVec obs obs_time ref_obs
    if cov_d.det = 0 then .error .linAlgError
    else
      let exponent : ℝ :=
        -(1/2 * Matrix.dotProduct (obs_d - mu_s) (cov_d⁻¹.mulVec (obs_d - mu_s)))
      let dsq : ℝ := (2 * Real.pi) ^ (obs.length - 1) * cov_d.det
      if dsq < 0 then .error .valueError
      else .ok (exponent - Real.log (Real.sqrt dsq), obs_d - mu_s)

/-- A networkx graph as this code sees it: a node list (in networkx
insertion order, unique) and an edge list. -/
structure NxGraph (V : Type) where
  nodes : List V
  edges : List (V × V)

/-- Modelled from the spec: the three collaborators of section 6 that live
in `GAU_LI_EMPIRICAL.source_est_tools`, a module whose source is not part
of the given files.  `compute_mean_shortest_path` aggregates the
path-length ensemble, `mu_vector_s` returns the model mean vector together
with the ordered list of selected observers it is defined over, and
`cov_matrix` returns a covariance matrix of matching dimension.  They are
parameters of the embedding. -/
structure Tools (V PL MP : Type) where
  compute_mean_shortest_path : PL → MP
  mu_vector_s : MP → V → List V → V → Σ sel : List V, Fin sel.length → ℝ
  cov_matrix : PL → (sel : List V) → V → V → Matrix (Fin sel.length) (Fin sel.length) ℝ

/-- The observer list of `ml_estimate` (source lines 40-42): the
observation items sorted by time, keys taken, then shuffled in place.  The
shuffle outcome is a parameter `shuffle` of the embedding. -/
def obsListOf (shuffle : List V → List V) (obs_time : List (V × ℚ)) : List V :=
  shuffle ((pySortedAscBy obs_time).map Prod.fst)

/-- The reference observer of `ml_estimate` (source line 43):
`obs_list[0]`, an `IndexError` (modelled by `none`) when empty. -/
def refObsOf (shuffle : List V → List V) (obs_time : List (V × ℚ)) : Option V :=
  (obsListOf shuffle obs_time).head?

/-- The candidate nodes of `ml_estimate` (source line 54):
`set(nodes) - set(obs_list)`, iterated in node order. -/
def candidatesOf (g : NxGraph V) (obs_list : List V) : List V :=
  g.nodes.filter (fun n => decide (n ∉ obs_list))

/-- Assignment `d[k] = v` on the association-list model of a dict: an
existing key keeps its position, a new key is appended. -/
def updateAssoc (l : List (V × FVal)) (k : V) (v : FVal) : List (V × FVal) :=
  if l.any (fun p => decide (p.1 = k)) then
    l.map (fun p => if p.1 = k then (k, v) else p)
  else l ++ [(k, v)]

/-- The body of the candidate loop of `ml_estimate` (source lines 56-62):
get `(mu_s, selected_obs)` from `mu_vector_s`, the covariance matrix from
`cov_matrix`, and the first component of `logLH_source_tree` (the second,
`tmp`, is discarded by the caller). -/
noncomputable def candLH (tools : Tools V PL MP) (path_lengths : PL) (mp : MP)
    (obs_time : List (V × ℚ)) (obs_list : List V) (ref_obs : V) (s : V) :
    Except Err ℝ :=
  let msel := tools.mu_vector_s mp s obs_list ref_obs
  let cov_d_s := tools.cov_matrix path_lengths msel.1 s ref_obs
  (logLH_source_tree msel.1 msel.2 cov_d_s obs_time ref_obs).map Prod.fst

/-- `ml_estimate` (source lines 24-76).  `shuffle` is the outcome of
`random.shuffle`; `max_dist` is the unused parameter of the Python
signature (default `np.inf` there).  The log-likelihood dict starts with
every node at `-inf`, each candidate is evaluated in turn (an exception
propagates, there is no handler in the source), the posterior is computed,
scores are sorted descending by value, and `scores[0]` raises `IndexError`
(modelled by `.error .indexError`) on an empty list. -/
noncomputable def ml_estimate (tools : Tools V PL MP) (shuffle : List V → List V)
    (graph : NxGraph V) (obs_time : List (V × ℚ)) (path_lengths : PL)
    (max_dist : ℝ) : Except Err (V × List (V × FVal)) :=
  let obs_list := obsListOf shuffle obs_time
  match obs_list.head? with
  | none => .error .indexError
  | some ref_obs =>
    let nodes := graph.nodes
    let loglikelihood0 : List (V × FVal) := nodes.map (fun n => (n, FVal.neginf))
    let mean_path_lengths := tools.compute_mean_shortest_path path_lengths
    let candidate_nodes := candidatesOf graph obs_list
    (candidate_nodes.foldlM
      (fun acc s =>
        (candLH tools path_lengths mean_path_lengths obs_time obs_list ref_obs s).bind
          (fun lh => pure (updateAssoc acc s (FVal.finite lh))))
      loglikelihood0).bind
      (fun loglikelihood =>
        let posterior := posterior_from_logLH loglikelihood
        let scores := pySortedDescBy posterior
        match scores.head? with
        | none => .error .indexError
        | some best => pure (best.1, scores))

/-- Concrete collaborators over node type `ℕ` for evaluating the pipeline
at specific inputs: the mean-path structure is trivial, `mu_vector_s`
selects no observers, `cov_matrix` is the identity matrix. -/
noncomputable def toolsU : Tools ℕ Unit Unit where
  compute_mean_shortest_path := fun _ => ()
  mu_vector_s := fun _ _ _ _ => ⟨[], fun _ => 0⟩
  cov_matrix := fun _ _ _ _ => 1

/-! Order facts about the IEEE comparison. -/

/-- IEEE `<` is irreflexive. -/
theorem fvalLt_irrefl (v : FVal) : fvalLt v v = false := by
  cases v <;> simp [fvalLt]

/-- IEEE `<` is asymmetric. -/
theorem fvalLt_asymm {a b : FVal} (h : fvalLt a b = true) : fvalLt b a = false := by
  cases a <;> cases b <;> simp_all [fvalLt]
  exact le_of_lt h

/-- IEEE `<` is transitive. -/
theorem fvalLt_trans {a b c : FVal} (h1 : fvalLt a b = true)
    (h2 : fvalLt b c = true) : fvalLt a c = true := by
  cases a <;> cases b <;> cases c <;> simp_all [fvalLt]
  exact lt_trans h1 h2

/-! Permutation and extremum facts about the sorting routines. -/

/-- Inserting into the float-sorted accumulator permutes consing. -/
theorem insertByF_perm (x : V × FVal) (l : List (V × FVal)) :
    (insertByF x l).Perm (x :: l) := by
  induction l with
  | nil => exact List.Perm.refl _
  | cons h t ih =>
    simp only [insertByF]
    split
    · exact List.Perm.refl _
    · exact (List.Perm.cons h ih).trans (List.Perm.swap x h t)

/-- The float sort permutes its input. -/
theorem sortAscByF_perm (l : List (V × FVal)) : (sortAscByF l).Perm l := by
  have key : ∀ (m : List (V × FVal)) (acc : List (V × FVal)),
      (m.foldl (fun acc x => insertByF x acc) acc).Perm (m ++ acc) := by
    intro m
    induction m with
    | nil => intro acc; exact List.Perm.refl _
    | cons x xs ih =>
      intro acc
      have h1 := ih (insertByF x acc)
      have h2 : (xs ++ insertByF x acc).Perm (xs ++ x :: acc) :=
        List.Perm.append_left xs (insertByF_perm x acc)
      have h3 : (xs ++ x :: acc).Perm (x :: (xs ++ acc)) := List.perm_middle
      simpa using (h1.trans h2).trans h3
  simpa using key l []

/-- The Python descending sort permutes its input. -/
theorem pySortedDescBy_perm (l : List (V × FVal)) : (pySortedDescBy l).Perm l := by
  unfold pySortedDescBy
  exact ((List.reverse_perm _).trans (sortAscByF_perm _)).trans (List.reverse_perm _)

/-- Inserting into the rational-sorted accumulator permutes consing. -/
theorem insertByQ_perm (x : V × ℚ) (l : List (V × ℚ)) :
    (insertByQ x l).Perm (x :: l) := by
  induction l with
  | nil => exact List.Perm.refl _
  | cons h t ih =>
    simp only [insertByQ]
    split
    · exact List.Perm.refl _
    · exact (List.Perm.cons h ih).trans (List.Perm.swap x h t)

/-- The rational sort permutes its input. -/
theorem pySortedAscBy_perm (l : List (V × ℚ)) : (pySortedAscBy l).Perm l := by
  have key : ∀ (m : List (V × ℚ)) (acc : List (V × ℚ)),
      (m.foldl (fun acc x => insertByQ x acc) acc).Perm (m ++ acc) := by
    intro m
    induction m with
    | nil => intro acc; exact List.Perm.refl _
    | cons x xs ih =>
      intro acc
      have h1 := ih (insertByQ x acc)
      have h2 : (xs ++ insertByQ x acc).Perm (xs ++ x :: acc) :=
        List.Perm.append_left xs (insertByQ_perm x acc)
      have h3 : (xs ++ x :: acc).Perm (x :: (xs ++ acc)) := List.perm_middle
      simpa using (h1.trans h2).trans h3
  simpa using key l []

/-- Insertion never produces the empty list. -/
theorem insertByF_ne_nil (x : V × FVal) (l : List (V × FVal)) :
    insertByF x l ≠ [] := by
  cases l with
  | nil => simp [insertByF]
  | cons h t =>
    simp only [insertByF]
    split <;> simp

/-- The last element after insertion is the old last element or the
inserted one. -/
theorem getLast?_insertByF (x : V × FVal) (l : List (V × FVal)) :
    (insertByF x l).getLast? = l.getLast? ∨ (insertByF x l).getLast? = some x := by
  induction l with
  | nil => right; simp [insertByF]
  | cons h t ih =>
    simp only [insertByF]
    split
    · left
      exact List.getLast?_cons_cons
    · cases t with
      | nil => right; simp [insertByF]
      | cons t0 t1 =>
        have hne : insertByF x (t0 :: t1) ≠ [] := insertByF_ne_nil x _
        obtain ⟨y, ys, hy⟩ := List.exists_cons_of_ne_nil hne
        rw [hy, List.getLast?_cons_cons]
        rw [hy] at ih
        rcases ih with ih | ih
        · left
          rw [ih, List.getLast?_cons_cons]
        · right
          exact ih

/-- The "last element is a maximum" invariant: no element of the list is
strictly above (in IEEE order) its last element.  Insertion preserves it. -/
theorem insertByF_last_max (x : V × FVal) (acc : List (V × FVal))
    (h : ∀ q ∈ acc, ∀ g, acc.getLast? = some g → fvalLt g.2 q.2 = false) :
    ∀ q ∈ insertByF x acc, ∀ g,
      (insertByF x acc).getLast? = some g → fvalLt g.2 q.2 = false := by
  induction acc with
  | nil =>
    intro q hq g hg
    simp only [insertByF, List.getLast?_singleton, Option.some.injEq] at hq hg
    simp only [List.mem_singleton] at hq
    subst hq; subst hg
    exact fvalLt_irrefl _
  | cons hd t ih =>
    simp only [insertByF]
    intro q hq g hg
    revert hq hg
    split
    all_goals rename_i hc
    · -- fvalLt x.2 hd.2 = true: result x :: hd :: t
      intro hq hg
      rw [List.getLast?_cons_cons] at hg
      have hghd : fvalLt g.2 hd.2 = false := h hd (List.mem_cons_self hd t) g hg
      rcases List.mem_cons.mp hq with rfl | hq'
      · -- q = x
        by_contra hgx
        have hgx' : fvalLt g.2 q.2 = true := by
          cases hx : fvalLt g.2 q.2
          · exact absurd hx hgx
          · rfl
        have := fvalLt_trans hgx' hc
        rw [hghd] at this
        exact Bool.false_ne_true this
      · exact h q hq' g hg
    · -- fvalLt x.2 hd.2 = false: result hd :: insertByF x t
      intro hq hg
      cases t with
      | nil =>
        simp only [insertByF] at hq hg
        rw [List.getLast?_cons_cons, List.getLast?_singleton] at hg
        cases hg
        rcases List.mem_cons.mp hq with rfl | hq'
        · exact eq_false_of_ne_true hc
        · simp only [List.mem_singleton] at hq'
          subst hq'
          exact fvalLt_irrefl _
      | cons t0 t1 =>
        have hne : insertByF x (t0 :: t1) ≠ [] := insertByF_ne_nil x _
        obtain ⟨y, ys, hy⟩ := List.exists_cons_of_ne_nil hne
        rw [hy, List.getLast?_cons_cons, ← hy] at hg
        have ht : ∀ q ∈ t0 :: t1, ∀ g, (t0 :: t1).getLast? = some g →
            fvalLt g.2 q.2 = false := by
          intro q hq g hg2
          exact h q (List.mem_cons_of_mem hd hq) g
            (by rw [List.getLast?_cons_cons]; exact hg2)
        have hins := ih ht
        rcases List.mem_cons.mp hq with rfl | hq'
        · -- q = hd
          rcases getLast?_insertByF x (t0 :: t1) with hl | hl
          · rw [hg] at hl
            exact h q (List.mem_cons_self q _) g
              (by rw [List.getLast?_cons_cons]; exact hl.symm)
          · rw [hg] at hl
            cases hl
            exact eq_false_of_ne_true hc
        · exact hins q hq' g hg

/-- In the output of the float sort, no element is strictly above the last
element. -/
theorem sortAscByF_last_max (l : List (V × FVal)) :
    ∀ q ∈ sortAscByF l, ∀ g, (sortAscByF l).getLast? = some g →
      fvalLt g.2 q.2 = false := by
  have key : ∀ (m : List (V × FVal)) (acc : List (V × FVal)),
      (∀ q ∈ acc, ∀ g, acc.getLast? = some g → fvalLt g.2 q.2 = false) →
      ∀ q ∈ m.foldl (fun acc x => insertByF x acc) acc, ∀ g,
        (m.foldl (fun acc x => insertByF x acc) acc).getLast? = some g →
        fvalLt g.2 q.2 = false := by
    intro m
    induction m with
    | nil => intro acc h; exact h
    | cons x xs ih =>
      intro acc h
      exact ih (insertByF x acc) (insertByF_last_max x acc h)
  exact key l [] (by simp)

/-- The head of the Python descending sort is an IEEE maximum: no element
of the sorted list is strictly above it. -/
theorem pySortedDescBy_head_max (l : List (V × FVal)) (b : V × FVal)
    (hb : (pySortedDescBy l).head? = some b) :
    ∀ q ∈ pySortedDescBy l, fvalLt b.2 q.2 = false := by
  intro q hq
  unfold pySortedDescBy at hb hq
  rw [List.head?_reverse] at hb
  rw [List.mem_reverse] at hq
  exact sortAscByF_last_max l.reverse q hq b hb

/-! Facts about the log-likelihood dictionary built by the candidate loop. -/

/-- Assigning to a key already in the dict keeps the key list unchanged. -/
theorem updateAssoc_keys (l : List (V × FVal)) (k : V) (v : FVal)
    (hk : k ∈ l.map Prod.fst) :
    (updateAssoc l k v).map Prod.fst = l.map Prod.fst := by
  have hany : l.any (fun p => decide (p.1 = k)) = true := by
    rw [List.any_eq_true]
    obtain ⟨p, hp, hpk⟩ := List.mem_map.mp hk
    exact ⟨p, hp, by simp [hpk]⟩
  unfold updateAssoc
  rw [if_pos hany, List.map_map]
  apply List.map_congr_left
  intro p _
  by_cases hpk : p.1 = k
  · simp [hpk]
  · simp [hpk]

/-- If every evaluated candidate succeeds, the candidate loop succeeds and
keeps the key list of the accumulator dict (candidates are keys already). -/
theorem foldlM_update_ok_keys (f : V → Except Err ℝ) :
    ∀ (l : List V) (acc : List (V × FVal)),
      (∀ s ∈ l, s ∈ acc.map Prod.fst) →
      ∀ ll, (l.foldlM (fun acc s =>
          (f s).bind (fun lh => pure (updateAssoc acc s (FVal.finite lh)))) acc)
          = Except.ok ll →
        ll.map Prod.fst = acc.map Prod.fst := by
  intro l
  induction l with
  | nil =>
    intro acc _ ll h
    have h2 : (Except.ok acc : Except Err (List (V × FVal))) = Except.ok ll := h
    cases h2
    rfl
  | cons x xs ih =>
    intro acc hmem ll h
    rw [List.foldlM_cons] at h
    cases hfx : f x with
    | error e =>
      rw [hfx] at h
      have h2 : (Except.error e : Except Err (List (V × FVal))) = Except.ok ll := h
      cases h2
    | ok lh =>
      rw [hfx] at h
      have h2 : xs.foldlM (fun acc s =>
          (f s).bind (fun lh => pure (updateAssoc acc s (FVal.finite lh))))
          (updateAssoc acc x (FVal.finite lh)) = Except.ok ll := h
      have hk : x ∈ acc.map Prod.fst := hmem x (List.mem_cons_self x xs)
      have hkeys := updateAssoc_keys acc x (FVal.finite lh) hk
      have hmem2 : ∀ s ∈ xs, s ∈ (updateAssoc acc x (FVal.finite lh)).map Prod.fst := by
        intro s hs
        rw [hkeys]
        exact hmem s (List.mem_cons_of_mem x hs)
      have := ih (updateAssoc acc x (FVal.finite lh)) hmem2 ll h2
      rw [this, hkeys]

/-- If some candidate's evaluation fails, the candidate loop fails (the
exception propagates; evaluation never reaches the remaining candidates). -/
theorem foldlM_update_error (f : V → Except Err ℝ) :
    ∀ (l : List V) (acc : List (V × FVal)),
      (∃ s ∈ l, ∃ e, f s = Except.error e) →
      ∃ e, (l.foldlM (fun acc s =>
          (f s).bind (fun lh => pure (updateAssoc acc s (FVal.finite lh)))) acc)
          = Except.error e := by
  intro l
  induction l with
  | nil =>
    intro acc h
    obtain ⟨s, hs, _⟩ := h
    exact absurd hs (List.not_mem_nil s)
  | cons x xs ih =>
    intro acc h
    rw [List.foldlM_cons]
    cases hfx : f x with
    | error e =>
      exact ⟨e, rfl⟩
    | ok lh =>
      show ∃ e, xs.foldlM (fun acc s =>
          (f s).bind (fun lh => pure (updateAssoc acc s (FVal.finite lh))))
          (updateAssoc acc x (FVal.finite lh)) = Except.error e
      apply ih
      obtain ⟨s, hs, e, he⟩ := h
      rcases List.mem_cons.mp hs with rfl | hs2
      · rw [hfx] at he
        exact absurd he (by simp)
      · exact ⟨s, hs2, e, he⟩

/-! Facts about the posterior normalization. -/

/-- Precondition of the normalizer met by the estimator: every stored
log-likelihood is a finite value or `-inf`. -/
def FiniteOrNeginf (l : List (V × FVal)) : Prop :=
  ∀ p ∈ l, (∃ x, p.2 = FVal.finite x) ∨ p.2 = FVal.neginf

/-- At least one stored log-likelihood is finite. -/
def HasFiniteVal (l : List (V × FVal)) : Prop :=
  ∃ p ∈ l, ∃ x, p.2 = FVal.finite x

/-- `exp` of a finite float value, `0` otherwise. -/
noncomputable def expOrZero : FVal → ℝ
  | .finite x => Real.exp x
  | _ => 0

/-- The sum of exponentials of the finite entries, as a mapped list sum. -/
theorem sumExpFinite_eq_sum_map (vals : List FVal) :
    sumExpFinite vals = (vals.map expOrZero).sum := by
  induction vals with
  | nil => simp [sumExpFinite]
  | cons v t ih => cases v <;> simp [sumExpFinite, expOrZero, ih]

/-- The sum of exponentials of the finite entries is nonnegative. -/
theorem sumExpFinite_nonneg (vals : List FVal) : 0 ≤ sumExpFinite vals := by
  induction vals with
  | nil => simp [sumExpFinite]
  | cons v t ih =>
    cases v <;> simp [sumExpFinite, ih]
    positivity

/-- With at least one finite entry, the sum of exponentials is positive. -/
theorem sumExpFinite_pos (vals : List FVal)
    (h : ∃ v ∈ vals, ∃ x, v = FVal.finite x) : 0 < sumExpFinite vals := by
  induction vals with
  | nil =>
    obtain ⟨v, hv, _⟩ := h
    exact absurd hv (List.not_mem_nil v)
  | cons v t ih =>
    obtain ⟨w, hw, x, hx⟩ := h
    rcases List.mem_cons.mp hw with rfl | hw2
    · subst hx
      simp only [sumExpFinite]
      have := sumExpFinite_nonneg t
      positivity
    · cases v
      case finite y =>
        simp only [sumExpFinite]
        have := sumExpFinite_nonneg t
        positivity
      all_goals
        simpa [sumExpFinite] using ih ⟨w, hw2, x, hx⟩

/-- On a list of finite-or-`-inf` values with at least one finite entry,
the modelled `logsumexp` returns the log of the sum of exponentials. -/
theorem logsumexp_finite (vals : List FVal)
    (hok : ∀ v ∈ vals, (∃ x, v = FVal.finite x) ∨ v = FVal.neginf)
    (hfin : ∃ v ∈ vals, ∃ x, v = FVal.finite x) :
    logsumexp vals = .finite (Real.log (sumExpFinite vals)) := by
  have hnan : vals.any FVal.isNan = false := by
    rw [List.any_eq_false]
    intro v hv
    rcases hok v hv with ⟨x, rfl⟩ | rfl <;> simp [FVal.isNan]
  have hpos : vals.any FVal.isPosinf = false := by
    rw [List.any_eq_false]
    intro v hv
    rcases hok v hv with ⟨x, rfl⟩ | rfl <;> simp [FVal.isPosinf]
  have hfin2 : vals.any FVal.isFinite = true := by
    rw [List.any_eq_true]
    obtain ⟨v, hv, x, rfl⟩ := hfin
    exact ⟨_, hv, by simp [FVal.isFinite]⟩
  simp [logsumexp, hnan, hpos, hfin2]

/-- The posterior entry of a finite log-likelihood `x` is the finite value
`exp x / S`, with `S` the sum of exponentials of the finite entries. -/
theorem posterior_entry_finite (l : List (V × FVal))
    (hok : FiniteOrNeginf l) (hfin : HasFiniteVal l) (x : ℝ) :
    fvalExp (fvalSub (FVal.finite x) (logsumexp (l.map Prod.snd)))
      = FVal.finite (Real.exp x / sumExpFinite (l.map Prod.snd)) := by
  have hok2 : ∀ v ∈ l.map Prod.snd, (∃ y, v = FVal.finite y) ∨ v = FVal.neginf := by
    intro v hv
    obtain ⟨p, hp, rfl⟩ := List.mem_map.mp hv
    exact hok p hp
  have hfin2 : ∃ v ∈ l.map Prod.snd, ∃ y, v = FVal.finite y := by
    obtain ⟨p, hp, y, hy⟩ := hfin
    exact ⟨p.2, List.mem_map.mpr ⟨p, hp, rfl⟩, y, hy⟩
  rw [logsumexp_finite _ hok2 hfin2]
  have hS : 0 < sumExpFinite (l.map Prod.snd) := sumExpFinite_pos _ hfin2
  simp only [fvalSub, fvalExp, FVal.finite.injEq]
  rw [Real.exp_sub, Real.exp_log hS]

/-- The posterior entry of a `-inf` log-likelihood is the finite value 0
whenever some other entry is finite. -/
theorem posterior_entry_neginf (l : List (V × FVal))
    (hok : FiniteOrNeginf l) (hfin : HasFiniteVal l) :
    fvalExp (fvalSub FVal.neginf (logsumexp (l.map Prod.snd)))
      = FVal.finite 0 := by
  have hok2 : ∀ v ∈ l.map Prod.snd, (∃ y, v = FVal.finite y) ∨ v = FVal.neginf := by
    intro v hv
    obtain ⟨p, hp, rfl⟩ := List.mem_map.mp hv
    exact hok p hp
  have hfin2 : ∃ v ∈ l.map Prod.snd, ∃ y, v = FVal.finite y := by
    obtain ⟨p, hp, y, hy⟩ := hfin
    exact ⟨p.2, List.mem_map.mpr ⟨p, hp, rfl⟩, y, hy⟩
  rw [logsumexp_finite _ hok2 hfin2]
  simp [fvalSub, fvalExp]

/-- Sums of division by a constant pull the constant out. -/
theorem list_sum_map_div {α : Type} (l : List α) (f : α → ℝ) (c : ℝ) :
    (l.map (fun a => f a / c)).sum = (l.map f).sum / c := by
  induction l with
  | nil => simp
  | cons a t ih => simp [ih, add_div]

/-! Claim theorems. -/

/-- C8: two runs of `ml_estimate` that differ only in `max_dist` return the
same result — the parameter is declared but never read by the body. -/
theorem claim8_max_dist_unused (tools : Tools V PL MP) (shuffle : List V → List V)
    (graph : NxGraph V) (obs_time : List (V × ℚ)) (path_lengths : PL)
    (d1 d2 : ℝ) :
    ml_estimate tools shuffle graph obs_time path_lengths d1 =
      ml_estimate tools shuffle graph obs_time path_lengths d2 := rfl

/-- C9: for every non-empty observation dict, whatever permutation the
random shuffle produces, the reference observer exists and is a key of
`obs_time`. -/
theorem claim9_ref_obs_is_observer (shuffle : List V → List V)
    (hsh : ∀ l : List V, (shuffle l).Perm l)
    (obs_time : List (V × ℚ)) (hne : obs_time ≠ []) :
    ∃ r, refObsOf shuffle obs_time = some r ∧ r ∈ obs_time.map Prod.fst := by
  have hperm : (obsListOf shuffle obs_time).Perm (obs_time.map Prod.fst) := by
    unfold obsListOf
    exact (hsh _).trans ((pySortedAscBy_perm obs_time).map Prod.fst)
  have hne2 : obsListOf shuffle obs_time ≠ [] := by
    intro h0
    rw [h0] at hperm
    have hkeys := hperm.symm.eq_nil
    exact hne (List.map_eq_nil.mp hkeys)
  obtain ⟨r, t, hrt⟩ := List.exists_cons_of_ne_nil hne2
  refine ⟨r, ?_, ?_⟩
  · unfold refObsOf
    rw [hrt]
    rfl
  · have hr : r ∈ obsListOf shuffle obs_time := by
      rw [hrt]
      exact List.mem_cons_self r t
    exact hperm.mem_iff.mp hr

/-- Witness for C9 at a concrete shuffle (the identity permutation) and a
concrete two-observer dict. -/
theorem claim9_witness :
    ∃ r, refObsOf (V := ℕ) id [(9, (0:ℚ)), (4, 1)] = some r ∧
      r ∈ [((9:ℕ), (0:ℚ)), (4, 1)].map Prod.fst :=
  claim9_ref_obs_is_observer id (fun l => List.Perm.refl l) _ (by simp)

/-- C10: `ml_estimate` reads the graph only through its node list; two
graphs with the same nodes and different edges give identical results. -/
theorem claim10_edges_irrelevant (tools : Tools V PL MP) (shuffle : List V → List V)
    (g1 g2 : NxGraph V) (h : g1.nodes = g2.nodes)
    (obs_time : List (V × ℚ)) (path_lengths : PL) (d : ℝ) :
    ml_estimate tools shuffle g1 obs_time path_lengths d =
      ml_estimate tools shuffle g2 obs_time path_lengths d := by
  unfold ml_estimate candidatesOf
  rw [h]

/-- Witness for C10: same node list, an edge list added, equal outputs. -/
theorem claim10_witness :
    ml_estimate toolsU id ⟨[1, 2, 3], []⟩ [(1, (0:ℚ)), (2, 1)] () 0 =
      ml_estimate toolsU id ⟨[1, 2, 3], [(1, 2), (2, 3)]⟩ [(1, (0:ℚ)), (2, 1)] () 0 :=
  claim10_edges_irrelevant toolsU id _ _ rfl _ () 0

/-- C5 as stated is false: on a log-likelihood map whose values are all
`-inf`, the bias is `-inf` and `np.exp(-inf - -inf)` is `nan`, so the
`-inf` candidate is assigned `nan`, not `0` (and nothing sums to 1). -/
theorem claim5_counterexample :
    posterior_from_logLH [((0:ℕ), FVal.neginf)] = [(0, FVal.nan)] ∧
      FVal.nan ≠ FVal.finite 0 :=
  ⟨rfl, fun h => FVal.noConfusion h⟩

/-- C5 (amended): when at least one log-likelihood is finite (and all
values are finite or `-inf`, as the estimator produces), every posterior
value is a nonnegative finite number, the values sum to 1 (the `-inf`
entries contributing 0), and every `-inf` candidate gets exactly 0. -/
theorem claim5_amended (l : List (V × FVal))
    (hok : FiniteOrNeginf l) (hfin : HasFiniteVal l) :
    (∀ q ∈ posterior_from_logLH l, ∃ x, q.2 = FVal.finite x ∧ 0 ≤ x) ∧
    ((posterior_from_logLH l).map (fun q => fvalToReal q.2)).sum = 1 ∧
    (∀ p ∈ l, p.2 = FVal.neginf → (p.1, FVal.finite 0) ∈ posterior_from_logLH l) := by
  have hfin2 : ∃ v ∈ l.map Prod.snd, ∃ y, v = FVal.finite y := by
    obtain ⟨p, hp, y, hy⟩ := hfin
    exact ⟨p.2, List.mem_map.mpr ⟨p, hp, rfl⟩, y, hy⟩
  have hS : 0 < sumExpFinite (l.map Prod.snd) := sumExpFinite_pos _ hfin2
  simp only [posterior_from_logLH]
  refine ⟨?_, ?_, ?_⟩
  · intro q hq
    obtain ⟨p, hp, rfl⟩ := List.mem_map.mp hq
    rcases hok p hp with ⟨x, hx⟩ | hx
    · rw [hx, posterior_entry_finite l hok hfin x]
      exact ⟨_, rfl, by positivity⟩
    · rw [hx, posterior_entry_neginf l hok hfin]
      exact ⟨0, rfl, le_refl 0⟩
  · rw [List.map_map]
    have heq : l.map ((fun q : V × FVal => fvalToReal q.2) ∘
          (fun p : V × FVal => (p.1, fvalExp (fvalSub p.2 (logsumexp (l.map Prod.snd))))))
        = l.map (fun p : V × FVal => expOrZero p.2 / sumExpFinite (l.map Prod.snd)) := by
      apply List.map_congr_left
      intro p hp
      show fvalToReal (fvalExp (fvalSub p.2 (logsumexp (l.map Prod.snd))))
        = expOrZero p.2 / sumExpFinite (l.map Prod.snd)
      rcases hok p hp with ⟨x, hx⟩ | hx
      · rw [hx, posterior_entry_finite l hok hfin x]
        simp [fvalToReal, expOrZero]
      · rw [hx, posterior_entry_neginf l hok hfin]
        simp [fvalToReal, expOrZero]
    rw [heq, list_sum_map_div]
    rw [sumExpFinite_eq_sum_map, List.map_map] at hS ⊢
    exact div_self (ne_of_gt hS)
  · intro p hp hneg
    refine List.mem_map.mpr ⟨p, hp, ?_⟩
    rw [hneg, posterior_entry_neginf l hok hfin]

/-- Witness for C5 (amended) at a concrete two-entry map with one finite
and one `-inf` log-likelihood: the posterior values sum to 1. -/
theorem claim5_witness :
    ((posterior_from_logLH [((0:ℕ), FVal.finite 0), (1, FVal.neginf)]).map
      (fun q => fvalToReal q.2)).sum = 1 :=
  (claim5_amended _
    (by
      intro p hp
      rcases List.mem_cons.mp hp with rfl | hp2
      · exact Or.inl ⟨0, rfl⟩
      · rw [List.mem_singleton] at hp2
        subst hp2
        exact Or.inr rfl)
    ⟨(0, FVal.finite 0), List.mem_cons_self _ _, 0, rfl⟩).2.1

/-- C6 as stated is false: the `-inf - (-inf)` case does arise (whenever
every value of the log-likelihood map is `-inf`) and it yields `nan` for
every key. -/
theorem claim6_counterexample :
    posterior_from_logLH [((0:ℕ), FVal.neginf), (1, FVal.neginf)] =
      [(0, FVal.nan), (1, FVal.nan)] ∧
    (0, FVal.nan) ∈ posterior_from_logLH [((0:ℕ), FVal.neginf), (1, FVal.neginf)] :=
  ⟨rfl, List.mem_cons_self _ _⟩

/-- C6 (amended): whenever at least one log-likelihood is finite (and all
values are finite or `-inf`), the normalization is `nan`-free: every
posterior value is non-`nan` and each `-inf` entry contributes exactly
zero probability mass. -/
theorem claim6_amended (l : List (V × FVal))
    (hok : FiniteOrNeginf l) (hfin : HasFiniteVal l) :
    (∀ q ∈ posterior_from_logLH l, q.2 ≠ FVal.nan) ∧
    (∀ p ∈ l, p.2 = FVal.neginf → (p.1, FVal.finite 0) ∈ posterior_from_logLH l) := by
  constructor
  · intro q hq
    simp only [posterior_from_logLH] at hq
    obtain ⟨p, hp, rfl⟩ := List.mem_map.mp hq
    rcases hok p hp with ⟨x, hx⟩ | hx
    · rw [hx, posterior_entry_finite l hok hfin x]
      exact fun h => FVal.noConfusion h
    · rw [hx, posterior_entry_neginf l hok hfin]
      exact fun h => FVal.noConfusion h
  · intro p hp hneg
    simp only [posterior_from_logLH]
    refine List.mem_map.mpr ⟨p, hp, ?_⟩
    rw [hneg, posterior_entry_neginf l hok hfin]

/-- Witness for C6 (amended) at a concrete map: the `-inf` entry is
assigned exactly `0`. -/
theorem claim6_witness :
    ((3:ℕ), FVal.finite 0) ∈
      posterior_from_logLH [((2:ℕ), FVal.finite 1), (3, FVal.neginf)] :=
  ((claim6_amended _
    (by
      intro p hp
      rcases List.mem_cons.mp hp with rfl | hp2
      · exact Or.inl ⟨1, rfl⟩
      · rw [List.mem_singleton] at hp2
        subst hp2
        exact Or.inr rfl)
    ⟨(2, FVal.finite 1), List.mem_cons_self _ _, 1, rfl⟩).2
    (3, FVal.neginf) (by simp) rfl)

/-- With fewer than two selected observers the evaluator stops at the
`assert` and raises. -/
theorem logLH_assert (obs : List V) (mu_s : Fin obs.length → ℝ)
    (cov_d : Matrix (Fin obs.length) (Fin obs.length) ℝ)
    (obs_time : List (V × ℚ)) (ref_obs : V) (h : obs.length ≤ 1) :
    logLH_source_tree obs mu_s cov_d obs_time ref_obs =
      Except.error Err.assertionError := by
  unfold logLH_source_tree
  rw [if_pos h]

/-- C2 as stated is false: the failing candidate's exception propagates.
A concrete run whose only candidate has an empty selected-observer list
makes the `assert` fail, and `ml_estimate` itself returns that error
instead of a `-inf` score for the candidate. -/
theorem claim2_counterexample :
    candLH toolsU () () [(1, (0:ℚ)), (2, 1)]
        (obsListOf id [(1, (0:ℚ)), (2, 1)]) 1 3 =
      Except.error Err.assertionError ∧
    ml_estimate toolsU id ⟨[1, 2, 3], []⟩ [(1, (0:ℚ)), (2, 1)] () 0 =
      Except.error Err.assertionError :=
  ⟨rfl, rfl⟩

/-- C2 (amended): `ml_estimate` has no exception handler, so whenever the
evaluation of some candidate fails (e.g. fewer than 2 selected observers,
or a singular covariance), the whole call fails — the error propagates to
the caller and the loop never reaches the remaining candidates; the `-inf`
pre-initialization never turns the failure into a score. -/
theorem claim2_amended (tools : Tools V PL MP) (shuffle : List V → List V)
    (graph : NxGraph V) (obs_time : List (V × ℚ)) (path_lengths : PL)
    (d : ℝ) (ref : V)
    (href : refObsOf shuffle obs_time = some ref)
    (hfail : ∃ s ∈ candidatesOf graph (obsListOf shuffle obs_time), ∃ e,
      candLH tools path_lengths (tools.compute_mean_shortest_path path_lengths)
        obs_time (obsListOf shuffle obs_time) ref s = Except.error e) :
    ∃ e, ml_estimate tools shuffle graph obs_time path_lengths d =
      Except.error e := by
  unfold refObsOf at href
  simp only [ml_estimate]
  split
  · rename_i heq
    rw [heq] at href
    cases href
  · rename_i r heq
    rw [heq] at href
    have hr : r = ref := by
      cases href
      rfl
    subst hr
    obtain ⟨e, he⟩ := foldlM_update_error
      (candLH tools path_lengths (tools.compute_mean_shortest_path path_lengths)
        obs_time (obsListOf shuffle obs_time) r)
      (candidatesOf graph (obsListOf shuffle obs_time))
      (graph.nodes.map (fun n => (n, FVal.neginf))) hfail
    rw [he]
    exact ⟨e, rfl⟩

/-- Witness for C2 (amended): a concrete three-node run whose candidate
fails the assert makes the whole estimation call fail. -/
theorem claim2_witness :
    ∃ e, ml_estimate toolsU id ⟨[1, 2, 4], []⟩ [(1, (0:ℚ)), (2, 1)] () 0 =
      Except.error e :=
  claim2_amended toolsU id ⟨[1, 2, 4], []⟩ [(1, (0:ℚ)), (2, 1)] () 0 1 rfl
    ⟨4, by decide, Err.assertionError, rfl⟩

/-- C4 as stated is false: with two observers and an empty candidate set,
`ml_estimate` returns a `(best_candidate, ranked_scores)` pair (with `nan`
posteriors) instead of failing. -/
theorem claim4_counterexample :
    ml_estimate toolsU id ⟨[1, 2], []⟩ [(1, (0:ℚ)), (2, 3)] () 0 =
      Except.ok (1, [(1, FVal.nan), (2, FVal.nan)]) ∧
    candidatesOf (⟨[1, 2], []⟩ : NxGraph ℕ) (obsListOf id [(1, (0:ℚ)), (2, 3)]) = [] ∧
    [(1, (0:ℚ)), (2, 3)].length = 2 :=
  ⟨rfl, rfl, rfl⟩

/-- C4 (amended): `ml_estimate` does fail on an empty observation dict
(the reference-observer selection raises `IndexError`), and — when the
collaborator respects its contract that the selected observers are drawn
from the observer list and exclude the reference — on a one-observer dict
with a non-empty candidate set (each candidate fails the assert).  An
empty candidate set alone does not make the call fail (see the
counterexample). -/
theorem claim4_amended :
    (∀ (W QL QM : Type) [DecidableEq W] (tools : Tools W QL QM)
        (shuffle : List W → List W), (∀ l : List W, (shuffle l).Perm l) →
        ∀ (graph : NxGraph W) (path_lengths : QL) (d : ℝ),
        ml_estimate tools shuffle graph [] path_lengths d =
          Except.error Err.indexError) ∧
    (∀ (W QL QM : Type) [DecidableEq W] (tools : Tools W QL QM)
        (shuffle : List W → List W), (∀ l : List W, (shuffle l).Perm l) →
        (∀ mp s ol r, (tools.mu_vector_s mp s ol r).1 ⊆ ol ∧
          r ∉ (tools.mu_vector_s mp s ol r).1) →
        ∀ (graph : NxGraph W) (o : W) (t : ℚ) (path_lengths : QL) (d : ℝ),
        candidatesOf graph (obsListOf shuffle [(o, t)]) ≠ [] →
        ∃ e, ml_estimate tools shuffle graph [(o, t)] path_lengths d =
          Except.error e) := by
  constructor
  · intro W QL QM _ tools shuffle hsh graph path_lengths d
    have hnil : obsListOf shuffle ([] : List (W × ℚ)) = [] := (hsh []).eq_nil
    simp only [ml_estimate]
    split
    · rfl
    · rename_i r heq
      rw [hnil] at heq
      cases heq
  · intro W QL QM _ tools shuffle hsh hcon graph o t path_lengths d hne
    have hobs : obsListOf shuffle [(o, t)] = [o] :=
      List.perm_singleton.mp (hsh _)
    have href : refObsOf shuffle [(o, t)] = some o := by
      unfold refObsOf
      rw [hobs]
      rfl
    apply claim2_amended tools shuffle graph [(o, t)] path_lengths d o href
    obtain ⟨s, hs⟩ := List.exists_mem_of_ne_nil _ hne
    refine ⟨s, hs, Err.assertionError, ?_⟩
    have hsel : (tools.mu_vector_s (tools.compute_mean_shortest_path path_lengths)
        s (obsListOf shuffle [(o, t)]) o).1 = [] := by
      rw [List.eq_nil_iff_forall_not_mem]
      intro a ha
      have h1 := (hcon (tools.compute_mean_shortest_path path_lengths)
        s (obsListOf shuffle [(o, t)]) o).1 ha
      rw [hobs] at h1
      rw [List.mem_singleton] at h1
      exact (hcon (tools.compute_mean_shortest_path path_lengths)
        s (obsListOf shuffle [(o, t)]) o).2 (h1 ▸ ha)
    have hlen : (tools.mu_vector_s (tools.compute_mean_shortest_path path_lengths)
        s (obsListOf shuffle [(o, t)]) o).1.length ≤ 1 := by
      rw [hsel]
      simp
    simp only [candLH]
    rw [logLH_assert _ _ _ _ _ hlen]
    rfl

/-- Witness for C4 (amended): the empty observation dict makes a concrete
call fail with `IndexError`. -/
theorem claim4_witness :
    ml_estimate toolsU id ⟨[6], []⟩ ([] : List (ℕ × ℚ)) () 0 =
      Except.error Err.indexError :=
  claim4_amended.1 ℕ Unit Unit toolsU id (fun l => List.Perm.refl l) ⟨[6], []⟩ () 0

/-- C3 as stated is false: the log-likelihood dict is initialized over all
graph nodes, observers included, so the returned ranking contains the
observer nodes.  Concretely both nodes are observers and both appear in
`ranked_scores`. -/
theorem claim3_counterexample :
    ml_estimate toolsU id ⟨[5, 7], []⟩ [(5, (0:ℚ)), (7, 1)] () 0 =
      Except.ok (5, [(5, FVal.nan), (7, FVal.nan)]) ∧
    5 ∈ [((5:ℕ), (0:ℚ)), (7, 1)].map Prod.fst :=
  ⟨rfl, by simp⟩

/-- C3 (amended): whenever `ml_estimate` returns, the returned
`ranked_scores` contains exactly one pair for every node of the graph —
observer nodes included (they keep their `-inf` initialization), not only
the non-observer nodes. -/
theorem claim3_amended (tools : Tools V PL MP) (shuffle : List V → List V)
    (graph : NxGraph V) (obs_time : List (V × ℚ)) (path_lengths : PL)
    (d : ℝ) (r : V × List (V × FVal))
    (hnd : graph.nodes.Nodup)
    (h : ml_estimate tools shuffle graph obs_time path_lengths d = Except.ok r) :
    (r.2.map Prod.fst).Perm graph.nodes ∧
    ∀ n ∈ graph.nodes, (r.2.map Prod.fst).count n = 1 := by
  simp only [ml_estimate] at h
  revert h
  split
  · intro h
    cases h
  · rename_i ref heq
    intro h
    cases hf : (candidatesOf graph (obsListOf shuffle obs_time)).foldlM
        (fun acc s =>
          (candLH tools path_lengths (tools.compute_mean_shortest_path path_lengths)
            obs_time (obsListOf shuffle obs_time) ref s).bind
            (fun lh => pure (updateAssoc acc s (FVal.finite lh))))
        (graph.nodes.map (fun n => (n, FVal.neginf))) with
    | error e =>
      rw [hf] at h
      have h2 : (Except.error e : Except Err (V × List (V × FVal))) = Except.ok r := h
      cases h2
    | ok ll =>
      rw [hf] at h
      have hkeys : ll.map Prod.fst = graph.nodes := by
        have hinit : (graph.nodes.map (fun n => (n, FVal.neginf))).map Prod.fst
            = graph.nodes := by
          rw [List.map_map]
          exact List.map_id _
        have hmem : ∀ s ∈ candidatesOf graph (obsListOf shuffle obs_time),
            s ∈ (graph.nodes.map (fun n => (n, FVal.neginf))).map Prod.fst := by
          intro s hs
          rw [hinit]
          exact (List.mem_filter.mp hs).1
        rw [foldlM_update_ok_keys _ _ _ hmem ll hf, hinit]
      have hpost : (posterior_from_logLH ll).map Prod.fst = graph.nodes := by
        simp only [posterior_from_logLH]
        rw [List.map_map]
        exact hkeys
      have h2 : (match (pySortedDescBy (posterior_from_logLH ll)).head? with
          | none => (Except.error Err.indexError : Except Err (V × List (V × FVal)))
          | some best => pure (best.1, pySortedDescBy (posterior_from_logLH ll)))
          = Except.ok r := h
      revert h2
      split
      · intro h2
        cases h2
      · rename_i best hb
        intro h2
        have h3 : (best.1, pySortedDescBy (posterior_from_logLH ll)) = r := by
          cases h2
          rfl
        have hperm : (r.2.map Prod.fst).Perm graph.nodes := by
          rw [← h3]
          rw [← hpost]
          exact (pySortedDescBy_perm (posterior_from_logLH ll)).map Prod.fst
        refine ⟨hperm, ?_⟩
        intro n hn
        rw [hperm.count_eq]
        exact List.count_eq_one_of_mem hnd hn

/-- Witness for C3 (amended) at a concrete run: the score keys are a
permutation of the node list and each node occurs exactly once. -/
theorem claim3_witness :
    (([((8:ℕ), FVal.nan), (9, FVal.nan)].map Prod.fst).Perm [8, 9]) ∧
    ∀ n ∈ [8, 9], ([((8:ℕ), FVal.nan), (9, FVal.nan)].map Prod.fst).count n = 1 :=
  claim3_amended toolsU id ⟨[8, 9], []⟩ [(8, (0:ℚ)), (9, 1)] () 0
    (8, [(8, FVal.nan), (9, FVal.nan)]) (by decide) rfl

/-- C7: whenever `ml_estimate` returns, the returned best candidate heads
the returned ranking and no ranked pair has a strictly greater probability
in the IEEE order (so it is an argmax of the returned posterior scores),
and the result is determined: a second run with the same inputs — in
particular the same reference observer and the same evaluation order —
returns the same pair. -/
theorem claim7_argmax (tools : Tools V PL MP) (shuffle : List V → List V)
    (graph : NxGraph V) (obs_time : List (V × ℚ)) (path_lengths : PL)
    (d : ℝ) (best : V) (scores : List (V × FVal))
    (h : ml_estimate tools shuffle graph obs_time path_lengths d =
      Except.ok (best, scores)) :
    (∃ pb, scores.head? = some (best, pb) ∧
      ∀ q ∈ scores, fvalLt pb q.2 = false) ∧
    (∀ b2 s2, ml_estimate tools shuffle graph obs_time path_lengths d =
      Except.ok (b2, s2) → b2 = best ∧ s2 = scores) := by
  constructor
  · simp only [ml_estimate] at h
    revert h
    split
    · intro h
      cases h
    · rename_i ref heq
      intro h
      cases hf : (candidatesOf graph (obsListOf shuffle obs_time)).foldlM
          (fun acc s =>
            (candLH tools path_lengths (tools.compute_mean_shortest_path path_lengths)
              obs_time (obsListOf shuffle obs_time) ref s).bind
              (fun lh => pure (updateAssoc acc s (FVal.finite lh))))
          (graph.nodes.map (fun n => (n, FVal.neginf))) with
      | error e =>
        rw [hf] at h
        have h2 : (Except.error e : Except Err (V × List (V × FVal)))
            = Except.ok (best, scores) := h
        cases h2
      | ok ll =>
        rw [hf] at h
        have h2 : (match (pySortedDescBy (posterior_from_logLH ll)).head? with
            | none => (Except.error Err.indexError : Except Err (V × List (V × FVal)))
            | some b => pure (b.1, pySortedDescBy (posterior_from_logLH ll)))
            = Except.ok (best, scores) := h
        revert h2
        split
        · intro h2
          cases h2
        · rename_i bp hb
          intro h2
          have h3 : bp.1 = best ∧ pySortedDescBy (posterior_from_logLH ll) = scores := by
            cases h2
            exact ⟨rfl, rfl⟩
          obtain ⟨hb1, hb2⟩ := h3
          refine ⟨bp.2, ?_, ?_⟩
          · rw [← hb2, hb, ← hb1]
          · intro q hq
            rw [← hb2] at hq
            exact pySortedDescBy_head_max (posterior_from_logLH ll) bp hb q hq
  · intro b2 s2 h2
    rw [h] at h2
    have h3 : (b2, s2) = (best, scores) := by
      cases h2
      rfl
    exact ⟨congrArg Prod.fst h3, congrArg Prod.snd h3⟩

/-- Witness for C7 at a concrete run of the estimator. -/
theorem claim7_witness :
    (∃ pb, [((3:ℕ), FVal.nan), (4, FVal.nan)].head? = some (3, pb) ∧
      ∀ q ∈ [((3:ℕ), FVal.nan), (4, FVal.nan)], fvalLt pb q.2 = false) ∧
    (∀ b2 s2, ml_estimate toolsU id ⟨[3, 4], []⟩ [(3, (0:ℚ)), (4, 1)] () 0 =
      Except.ok (b2, s2) → b2 = 3 ∧ s2 = [(3, FVal.nan), (4, FVal.nan)]) :=
  claim7_argmax toolsU id ⟨[3, 4], []⟩ [(3, (0:ℚ)), (4, 1)] () 0
    3 [(3, FVal.nan), (4, FVal.nan)] rfl

/-- Successful evaluation of `logLH_source_tree`: with the assert passed,
keys present, a regular covariance and a nonnegative radicand, the result
is `exponent - log(sqrt((2 pi)^(k-1) det))` with `k = len(obs_d)`. -/
theorem logLH_ok (obs : List V) (mu_s : Fin obs.length → ℝ)
    (cov_d : Matrix (Fin obs.length) (Fin obs.length) ℝ)
    (obs_time : List (V × ℚ)) (ref_obs : V)
    (h2 : ¬ obs.length ≤ 1)
    (hk : (obs.all (fun o => hasKey obs_time o) ∧ hasKey obs_time ref_obs))
    (hdet : ¬ cov_d.det = 0)
    (hpos : ¬ ((2 * Real.pi) ^ (obs.length - 1) * cov_d.det < 0)) :
    logLH_source_tree obs mu_s cov_d obs_time ref_obs = Except.ok
      (-(1/2 * Matrix.dotProduct (obsDVec obs obs_time ref_obs - mu_s)
          (cov_d⁻¹.mulVec (obsDVec obs obs_time ref_obs - mu_s)))
        - Real.log (Real.sqrt ((2 * Real.pi) ^ (obs.length - 1) * cov_d.det)),
       obsDVec obs obs_time ref_obs - mu_s) := by
  unfold logLH_source_tree
  rw [if_neg h2, if_neg (not_not_intro hk), if_neg hdet, if_neg hpos]

/-- A concrete mean vector of the dimension demanded by the observer list
`[1, 2]`. -/
noncomputable def muEx : Fin ([1, 2] : List ℕ).length → ℝ := ![1, 2]

/-- C1: the code and the claimed Gaussian log-density disagree.  At a
concrete feasible input with `k = 2` selected observers, zero residual and
identity covariance, `logLH_source_tree` returns `-1/2*log(2*pi)` — its
`denom` uses `(2*pi)^(len(obs_d)-1)` — while the claimed density
`-1/2*log((2*pi)^k*det)` equals `-log(2*pi)`; the two differ.  The code's
own docstring says it computes the Gaussian log-probability, so the
`k - 1` exponent is a slip in the code. -/
theorem claim1_code_divergence :
    logLH_source_tree [1, 2] muEx 1 [((0:ℕ), (0:ℚ)), (1, 1), (2, 2)] 0 =
      Except.ok (-(1/2 * Real.log (2 * Real.pi)), 0) ∧
    gaussLogDensity 2 ![(1:ℝ), 2] ![(1:ℝ), 2] 1 = -(Real.log (2 * Real.pi)) ∧
    -(1/2 * Real.log (2 * Real.pi)) ≠ -(Real.log (2 * Real.pi)) := by
  have hL : 0 < Real.log (2 * Real.pi) := by
    apply Real.log_pos
    have := Real.pi_gt_three
    linarith
  refine ⟨?_, ?_, ?_⟩
  · have hdiff : obsDVec [1, 2] [((0:ℕ), (0:ℚ)), (1, 1), (2, 2)] 0 - muEx = 0 := by
      funext l
      fin_cases l <;>
        simp [obsDVec, lookupD, muEx] <;> norm_num
    rw [logLH_ok _ _ _ _ _ (by decide) (by decide)
      (by rw [Matrix.det_one]; exact one_ne_zero)
      (by rw [Matrix.det_one]; push_neg; positivity)]
    rw [hdiff]
    simp only [Except.ok.injEq, Prod.mk.injEq]
    refine ⟨?_, trivial⟩
    rw [Matrix.zero_dotProduct, Matrix.det_one, mul_one]
    have h1 : (([1, 2] : List ℕ).length - 1) = 1 := rfl
    rw [h1, pow_one, Real.log_sqrt (by positivity)]
    ring
  · unfold gaussLogDensity
    rw [sub_self, Matrix.zero_dotProduct, Matrix.det_one, mul_one, Real.log_pow]
    push_cast
    ring
  · intro h
    have : Real.log (2 * Real.pi) = 0 := by linarith [neg_injective h]
    linarith
